import Mathlib

/-!
Verification of the platform-abstraction library (generic `std` port):
shallow embedding of `src/io/mod.rs` (the adaptive read-to-end engine and
its `Guard`) and of `src/ffi/os_str.rs` (the native/Unicode string bridge),
with theorems settling the specification's claims about them.
-/

namespace Rust48010

/-! ## The adaptive read engine (`src/io/mod.rs`)

`read_to_end` drains a `Read` source into a `Vec<u8>`.  The `Vec<u8>` is
modelled by `RVec`: `mem` is the allocated block (one entry per allocated
byte, so `mem.length` is the capacity; `none` marks an uninitialized byte,
`some b` a byte holding value `b`), and `len` is the vector's logical
length field.  The source code manipulates the length directly through
`set_len`, so `len` and `mem.length` are tracked separately. -/

structure RVec where
  mem : List (Option Nat)
  len : Nat
  deriving DecidableEq

/-- A `Vec<u8>` freshly holding exactly the bytes `bs` (capacity = length,
every byte initialized). -/
def RVec.ofList (bs : List Nat) : RVec :=
  ⟨bs.map some, bs.length⟩

/-- `Vec::reserve(n)`: guarantees capacity at least `len + n`.  The real
allocator may over-allocate for amortization; this model takes the minimal
conforming capacity `max capacity (len + n)`, newly allocated bytes being
uninitialized.  No claim settled here depends on over-allocation slack. -/
def reserveMin (v : RVec) (n : Nat) : RVec :=
  if v.mem.length < v.len + n then
    ⟨v.mem ++ List.replicate (v.len + n - v.mem.length) none, v.len⟩
  else v

/-- `set_len(capacity)` as used at src/io/mod.rs:86-87: the logical length
becomes the capacity. -/
def setLenCap (v : RVec) : RVec :=
  ⟨v.mem, v.mem.length⟩

/-- `Initializer::initialize` on the region `buf[glen..]`
(src/io/mod.rs:46-50 with the `zeroing` initializer): every byte from
position `glen` to the end of the allocation is overwritten with 0. -/
def zeroFrom (v : RVec) (glen : Nat) : RVec :=
  ⟨v.mem.take glen ++ List.replicate (v.mem.length - glen) (some 0), v.len⟩

/-- The body of the `if g.len == g.buf.len()` block of `read_to_end`
(src/io/mod.rs:83-90): `reserve(32)`, `set_len(capacity)`, then zero-fill
the exposed region `buf[g.len..]` when the reader's initializer zeroes
(`zero = true`; `zero = false` models `Initializer::nop`, which leaves the
region as allocated). -/
def growStep (zero : Bool) (v : RVec) (glen : Nat) : RVec :=
  if glen = v.len then
    let v1 := setLenCap (reserveMin v 32)
    if zero then zeroFrom v1 glen else v1
  else v

/-- A successful `read` call writing the bytes `bs` at the head of the
slice `buf[glen..]`: positions `glen..glen+bs.length` of the allocation are
overwritten. -/
def writeAt (v : RVec) (glen : Nat) (bs : List Nat) : RVec :=
  ⟨v.mem.take glen ++ bs.map some ++ v.mem.drop (glen + bs.length), v.len⟩

/-- Modelled from the spec: `io::Error` lives in `src/io/error.rs`, which
is not among the sources; the spec (§7 and the glossary) requires only a
portable classification that singles out the interrupted class and the
identity of the error value.  `interrupted` is true exactly when
`e.kind() == ErrorKind::Interrupted`; `id` distinguishes error values. -/
structure IoError where
  interrupted : Bool
  id : Nat
  deriving DecidableEq

/-- One invocation of the `Read` capability (`fn read` of the `Read` trait,
src/io/mod.rs:56): it either returns `Ok(bs.length)` after writing `bs`
into the head of the given slice, returns an error, or aborts control flow
abruptly (panics) without returning. -/
inductive ReadEvent where
  | ok (bs : List Nat)
  | err (e : IoError)
  | panic
  deriving DecidableEq

/-- How a run of `read_to_end` ends: a normal `Ok(n)` return, a normal
`Err(e)` return, or propagation of the reader's abrupt termination. -/
inductive RteOutcome where
  | success (n : Nat)
  | failure (e : IoError)
  | panicked
  deriving DecidableEq

/-- The loop of `read_to_end` (src/io/mod.rs:82-104), one iteration per
source event.  `start` is `start_len`, `glen` the guard's `g.len`, `v` the
destination vector.  Each iteration first runs the grow block (a no-op
unless `glen = v.len`), then performs one `read`:
`Ok(0)` returns `Ok(g.len - start_len)`; `Ok(n)` advances `g.len` by `n`
(the write must fit in the slice `buf[g.len..]`, whose size is
`v.len - glen`; traces that no reader of that slice can produce yield
`none`); an `Interrupted` error retries; any other error returns `Err(e)`;
a panic propagates.  `Guard` (src/io/mod.rs:53) has no `Drop`
implementation in this crate, so no exit path restores the length: the
vector is returned exactly as the loop left it.  An exhausted event list
also yields `none` (the run is not determined by the trace). -/
def rteAux (start : Nat) (zero : Bool) :
    List ReadEvent → RVec → Nat → Option (RteOutcome × RVec)
  | [], _, _ => none
  | ReadEvent.ok [] :: _, v, glen =>
      some (RteOutcome.success (glen - start), growStep zero v glen)
  | ReadEvent.ok (b :: bs) :: rest, v, glen =>
      let v1 := growStep zero v glen
      if (b :: bs).length ≤ v1.len - glen then
        rteAux start zero rest (writeAt v1 glen (b :: bs)) (glen + (b :: bs).length)
      else none
  | ReadEvent.err e :: rest, v, glen =>
      if e.interrupted then rteAux start zero rest (growStep zero v glen) glen
      else some (RteOutcome.failure e, growStep zero v glen)
  | ReadEvent.panic :: _, v, glen =>
      some (RteOutcome.panicked, growStep zero v glen)

/-- `fn read_to_end` (src/io/mod.rs:78-107): `start_len` and the guard's
`len` are both initialized to `buf.len()`, then the loop runs.  `zero` is
`r.initializer().should_initialize()` (`true` for the default `zeroing`
initializer, `false` for `nop`). -/
def read_to_end (zero : Bool) (events : List ReadEvent) (buf : RVec) :
    Option (RteOutcome × RVec) :=
  rteAux buf.len zero events buf buf.len

/-! ### Lemmas about the growth block -/

lemma reserveMin_mem_length (v : RVec) (n : Nat) :
    (reserveMin v n).mem.length = max v.mem.length (v.len + n) := by
  unfold reserveMin
  split_ifs with h
  · simp only [List.length_append, List.length_replicate]
    omega
  · omega

lemma reserveMin_len (v : RVec) (n : Nat) : (reserveMin v n).len = v.len := by
  unfold reserveMin
  split_ifs <;> rfl

lemma growStep_of_ne {glen : Nat} {v : RVec} (zero : Bool) (h : glen ≠ v.len) :
    growStep zero v glen = v := by
  unfold growStep
  rw [if_neg h]

lemma growStep_grown (zero : Bool) (v : RVec) (glen : Nat) (h : glen = v.len) :
    (growStep zero v glen).len = max v.mem.length (v.len + 32) ∧
    (growStep zero v glen).mem.length = max v.mem.length (v.len + 32) := by
  have h1 := reserveMin_mem_length v 32
  unfold growStep setLenCap zeroFrom
  rw [if_pos h]
  cases zero with
  | false =>
      rw [if_neg Bool.false_ne_true]
      exact ⟨h1, h1⟩
  | true =>
      rw [if_pos rfl]
      refine ⟨h1, ?_⟩
      simp only [List.length_append, List.length_take, List.length_replicate]
      omega

lemma growStep_true_eq (v : RVec) (glen : Nat) (h : glen = v.len) :
    growStep true v glen = zeroFrom (setLenCap (reserveMin v 32)) glen := by
  unfold growStep
  rw [if_pos h]
  rfl

lemma growStep_false_eq (v : RVec) (glen : Nat) (h : glen = v.len) :
    growStep false v glen = setLenCap (reserveMin v 32) := by
  unfold growStep
  rw [if_pos h]
  rfl

/-- Growing is idempotent: right after the grow block has run, the guard
length is strictly below the vector length, so running the block again
changes nothing. -/
lemma growStep_idem (zero : Bool) (v : RVec) (glen : Nat) :
    growStep zero (growStep zero v glen) glen = growStep zero v glen := by
  by_cases h : glen = v.len
  · have hg := growStep_grown zero v glen h
    have hne : glen ≠ (growStep zero v glen).len := by
      rw [hg.1]
      omega
    exact growStep_of_ne zero hne
  · rw [growStep_of_ne zero h]
    exact growStep_of_ne zero h

lemma growStep_inv (zero : Bool) (v : RVec) (glen start : Nat)
    (hsg : start ≤ glen) (hgl : glen ≤ v.len)
    (hinv : glen = v.len ∨ (v.len = v.mem.length ∧ start + 32 ≤ v.len)) :
    (growStep zero v glen).len = (growStep zero v glen).mem.length ∧
    start + 32 ≤ (growStep zero v glen).len ∧
    glen ≤ (growStep zero v glen).len := by
  by_cases h : glen = v.len
  · obtain ⟨hl, hm⟩ := growStep_grown zero v glen h
    exact ⟨hl.trans hm.symm, by omega, by omega⟩
  · rw [growStep_of_ne zero h]
    rcases hinv with h' | ⟨h1, h2⟩
    · exact absurd h' h
    · exact ⟨h1, h2, hgl⟩

lemma writeAt_len (v : RVec) (glen : Nat) (bs : List Nat) :
    (writeAt v glen bs).len = v.len := rfl

lemma writeAt_mem_length {v : RVec} {glen : Nat} {bs : List Nat}
    (h : glen + bs.length ≤ v.mem.length) :
    (writeAt v glen bs).mem.length = v.mem.length := by
  simp only [writeAt, List.length_append, List.length_take, List.length_drop,
    List.length_map]
  omega

/-- Exit invariant of the loop: however a run of the loop ends (success,
error, or panic), the vector it leaves behind has its logical length equal
to its capacity, at least 32 above `start`, because the loop's grow block
sets `len` to the capacity and no exit path ever restores it. -/
lemma rteAux_exit (zero : Bool) :
    ∀ (events : List ReadEvent) (v : RVec) (glen start : Nat)
      (res : RteOutcome) (v' : RVec),
      rteAux start zero events v glen = some (res, v') →
      start ≤ glen → glen ≤ v.len →
      (glen = v.len ∨ (v.len = v.mem.length ∧ start + 32 ≤ v.len)) →
      v'.len = v'.mem.length ∧ start + 32 ≤ v'.len := by
  intro events
  induction events with
  | nil =>
      intro v glen start res v' h
      simp [rteAux] at h
  | cons e rest ih =>
      intro v glen start res v' h hsg hgl hinv
      obtain ⟨hfix, hge, hglen⟩ := growStep_inv zero v glen start hsg hgl hinv
      cases e with
      | ok bs =>
          cases bs with
          | nil =>
              simp only [rteAux, Option.some.injEq, Prod.mk.injEq] at h
              obtain ⟨-, hv⟩ := h
              subst hv
              exact ⟨hfix, hge⟩
          | cons b bs' =>
              simp only [rteAux] at h
              split at h
              · rename_i hfit
                refine ih _ _ _ _ _ h (by omega) ?_ (Or.inr ⟨?_, ?_⟩)
                · rw [writeAt_len]
                  omega
                · rw [writeAt_len, writeAt_mem_length (by omega)]
                  exact hfix
                · rw [writeAt_len]
                  exact hge
              · exact absurd h (by simp)
      | err er =>
          simp only [rteAux] at h
          split at h
          · exact ih _ _ _ _ _ h hsg hglen (Or.inr ⟨hfix, hge⟩)
          · simp only [Option.some.injEq, Prod.mk.injEq] at h
            obtain ⟨-, hv⟩ := h
            subst hv
            exact ⟨hfix, hge⟩
      | panic =>
          simp only [rteAux, Option.some.injEq, Prod.mk.injEq] at h
          obtain ⟨-, hv⟩ := h
          subst hv
          exact ⟨hfix, hge⟩

/-- One interrupted read is skipped without any observable effect: any
growth performed in the interrupted iteration is exactly the growth the
next iteration would perform anyway. -/
lemma rteAux_growStep_absorb (start : Nat) (zero : Bool)
    (rest : List ReadEvent) (v : RVec) (glen : Nat) :
    rteAux start zero rest (growStep zero v glen) glen =
      rteAux start zero rest v glen := by
  cases rest with
  | nil => rfl
  | cons e r =>
      cases e with
      | ok bs =>
          cases bs with
          | nil => simp only [rteAux, growStep_idem]
          | cons b bs' => simp only [rteAux, growStep_idem]
      | err er => simp only [rteAux, growStep_idem]
      | panic => simp only [rteAux, growStep_idem]

/-! ### Claims about the read engine -/

/-- C1: evaluation of `read_to_end` at a source that appends the 3 bytes
`[1,2,3]` and then fails with a non-interrupted error, destination
initially empty.  The error is returned and the appended bytes are kept,
but the claim's "and nothing more" fails: `Guard` (src/io/mod.rs:53) has no
`Drop` implementation, so the error exit leaves the vector's length at the
capacity 32 set by `set_len(capacity)` instead of truncating it back to 3;
the buffer is not the 3-byte vector the claim requires. -/
theorem read_to_end_error_keeps_extended_len :
    read_to_end true [ReadEvent.ok [1, 2, 3], ReadEvent.err ⟨false, 7⟩]
        (RVec.ofList []) =
      some (RteOutcome.failure ⟨false, 7⟩,
        ⟨[1, 2, 3].map some ++ List.replicate 29 (some 0), 32⟩) ∧
    (⟨[1, 2, 3].map some ++ List.replicate 29 (some 0), 32⟩ : RVec) ≠
      RVec.ofList [1, 2, 3] := by
  exact ⟨by decide, by decide⟩

/-- C2: evaluation of `read_to_end` at a source yielding 4 bytes then
end-of-stream, destination initially holding `[9]`.  The return value is
`Ok(4)` and the 4 bytes are appended after the untouched prefix, as
claimed, but the final buffer is not `[9,5,6,7,8]`: with no `Drop` on
`Guard` the successful exit leaves the length at the capacity 33, with a
28-byte zero-filled tail exposed, instead of restoring it to 1 + 4 = 5. -/
theorem read_to_end_success_keeps_extended_len :
    read_to_end true [ReadEvent.ok [5, 6, 7, 8], ReadEvent.ok []]
        (RVec.ofList [9]) =
      some (RteOutcome.success 4,
        ⟨[some 9, some 5, some 6, some 7, some 8] ++ List.replicate 28 (some 0),
          33⟩) ∧
    (⟨[some 9, some 5, some 6, some 7, some 8] ++ List.replicate 28 (some 0),
        33⟩ : RVec) ≠ RVec.ofList [9, 5, 6, 7, 8] := by
  exact ⟨by decide, by decide⟩

/-- C3: evaluation of `read_to_end` at a source that panics on its first
read, destination initially empty, with a non-zeroing (`nop`) initializer.
The claim requires the buffer length to be rolled back to the captured
starting length (0) before the panic propagates; but `Guard`
(src/io/mod.rs:53) has no `Drop` implementation, so the panic leaves the
length at 32 with all 32 exposed bytes uninitialized (`none`) — exactly
the observable state the guard invariant is supposed to prevent. -/
theorem read_to_end_panic_no_rollback :
    read_to_end false [ReadEvent.panic] (RVec.ofList []) =
      some (RteOutcome.panicked, ⟨List.replicate 32 none, 32⟩) ∧
    (⟨List.replicate 32 none, 32⟩ : RVec).len ≠ (RVec.ofList []).len := by
  exact ⟨by decide, by decide⟩

/-- C4: an `Interrupted` error is retried transparently.  First conjunct:
for every state of the loop, prepending an interrupted-error read to any
event sequence leaves the result of the loop unchanged — the error is not
surfaced, the recorded length `glen` does not advance, and the retry is
observationally identical to the same iteration without the interruption.
Second conjunct: the spec's concrete instance — two interrupted reads,
then 7 bytes, then end-of-stream — returns `Ok(7)`. -/
theorem read_to_end_interrupted_transparent :
    (∀ (start : Nat) (zero : Bool) (id : Nat) (rest : List ReadEvent)
       (v : RVec) (glen : Nat),
      rteAux start zero (ReadEvent.err ⟨true, id⟩ :: rest) v glen =
        rteAux start zero rest v glen) ∧
    (read_to_end true [ReadEvent.err ⟨true, 1⟩, ReadEvent.err ⟨true, 2⟩,
        ReadEvent.ok [1, 2, 3, 4, 5, 6, 7], ReadEvent.ok []]
        (RVec.ofList [])).map Prod.fst =
      some (RteOutcome.success 7) := by
  constructor
  · intro start zero id rest v glen
    have h1 : rteAux start zero (ReadEvent.err ⟨true, id⟩ :: rest) v glen =
        rteAux start zero rest (growStep zero v glen) glen := by
      simp [rteAux]
    rw [h1, rteAux_growStep_absorb]
  · decide

/-- C5: the grow block (src/io/mod.rs:83-90).  Whenever the recorded
length equals the vector's length, the block reserves room for 32 more
bytes (capacity becomes at least `len + 32`; this model uses the minimal
conforming capacity `max capacity (len + 32)`), extends the logical length
to the new capacity, and zero-fills the newly exposed region
`buf[g.len..]` under the default zeroing initializer (`growStep true`),
while with the opt-out `nop` initializer (`growStep false`) the exposed
bytes are left exactly as allocated (the old allocation followed by
uninitialized bytes). -/
theorem growStep_reserve32_spec (v : RVec) (glen : Nat) (h : glen = v.len) :
    v.len + 32 ≤ (growStep true v glen).mem.length ∧
    (growStep true v glen).mem.length = max v.mem.length (v.len + 32) ∧
    (growStep false v glen).mem.length = max v.mem.length (v.len + 32) ∧
    (growStep true v glen).len = (growStep true v glen).mem.length ∧
    (growStep false v glen).len = (growStep false v glen).mem.length ∧
    (growStep true v glen).mem.drop glen =
      List.replicate ((growStep true v glen).mem.length - glen) (some 0) ∧
    (growStep false v glen).mem =
      v.mem ++
        List.replicate ((growStep false v glen).mem.length - v.mem.length)
          none := by
  obtain ⟨hlt, hmt⟩ := growStep_grown true v glen h
  obtain ⟨hlf, hmf⟩ := growStep_grown false v glen h
  have ht := growStep_true_eq v glen h
  have hf := growStep_false_eq v glen h
  have hrm := reserveMin_mem_length v 32
  refine ⟨by omega, hmt, hmf, hlt.trans hmt.symm, hlf.trans hmf.symm, ?_, ?_⟩
  · have hA : ((reserveMin v 32).mem.take glen).length = glen := by
      rw [List.length_take]
      omega
    rw [hmt, ht]
    show ((reserveMin v 32).mem.take glen ++
        List.replicate ((reserveMin v 32).mem.length - glen) (some 0)).drop glen =
      List.replicate (max v.mem.length (v.len + 32) - glen) (some 0)
    rw [List.drop_left' hA, hrm]
  · rw [hmf, hf]
    show (reserveMin v 32).mem =
      v.mem ++
        List.replicate (max v.mem.length (v.len + 32) - v.mem.length) none
    unfold reserveMin
    split_ifs with hc
    · show v.mem ++ List.replicate (v.len + 32 - v.mem.length) none =
        v.mem ++
          List.replicate (max v.mem.length (v.len + 32) - v.mem.length) none
      have hcount : v.len + 32 - v.mem.length =
          max v.mem.length (v.len + 32) - v.mem.length := by omega
      rw [hcount]
    · have hcount : max v.mem.length (v.len + 32) - v.mem.length = 0 := by
        omega
      rw [hcount, List.replicate_zero, List.append_nil]

/-- C5 witness: the grow block run on a one-byte buffer `[5]` with the
guard length at 1. -/
theorem growStep_reserve32_spec_witness :
    (RVec.ofList [5]).len + 32 ≤
      (growStep true (RVec.ofList [5]) 1).mem.length ∧
    (growStep true (RVec.ofList [5]) 1).mem.length =
      max (RVec.ofList [5]).mem.length ((RVec.ofList [5]).len + 32) ∧
    (growStep false (RVec.ofList [5]) 1).mem.length =
      max (RVec.ofList [5]).mem.length ((RVec.ofList [5]).len + 32) ∧
    (growStep true (RVec.ofList [5]) 1).len =
      (growStep true (RVec.ofList [5]) 1).mem.length ∧
    (growStep false (RVec.ofList [5]) 1).len =
      (growStep false (RVec.ofList [5]) 1).mem.length ∧
    (growStep true (RVec.ofList [5]) 1).mem.drop 1 =
      List.replicate ((growStep true (RVec.ofList [5]) 1).mem.length - 1)
        (some 0) ∧
    (growStep false (RVec.ofList [5]) 1).mem =
      (RVec.ofList [5]).mem ++
        List.replicate
          ((growStep false (RVec.ofList [5]) 1).mem.length -
            (RVec.ofList [5]).mem.length) none :=
  growStep_reserve32_spec (RVec.ofList [5]) 1 rfl

/-- C10: on every exit of `read_to_end` — success, error and panic alike —
the destination vector's logical length equals its capacity (the value the
last `set_len(capacity)` installed, at least 32 above the starting
length), and is never restored to the count of bytes written; so whenever
the capacity exceeds starting length + returned count, the final length
exceeds starting length + returned count as well. -/
theorem read_to_end_len_stays_at_capacity (zero : Bool)
    (events : List ReadEvent) (buf : RVec) (res : RteOutcome) (v' : RVec)
    (h : read_to_end zero events buf = some (res, v')) :
    v'.len = v'.mem.length ∧ buf.len + 32 ≤ v'.len ∧
    ∀ n, res = RteOutcome.success n → buf.len + n < v'.mem.length →
      buf.len + n < v'.len := by
  obtain ⟨h1, h2⟩ := rteAux_exit zero events buf buf.len buf.len res v' h
    (le_refl _) (le_refl _) (Or.inl rfl)
  refine ⟨h1, h2, ?_⟩
  intro n _ hc
  rw [h1]
  exact hc

/-- C10 witness: a source yielding one byte then end-of-stream into an
empty buffer; the final vector has length 32 = its capacity. -/
theorem read_to_end_len_stays_at_capacity_witness :
    (⟨some 1 :: List.replicate 31 (some 0), 32⟩ : RVec).len =
      (⟨some 1 :: List.replicate 31 (some 0), 32⟩ : RVec).mem.length ∧
    (RVec.ofList []).len + 32 ≤
      (⟨some 1 :: List.replicate 31 (some 0), 32⟩ : RVec).len := by
  have h := read_to_end_len_stays_at_capacity true
    [ReadEvent.ok [1], ReadEvent.ok []] (RVec.ofList [])
    (RteOutcome.success 1) ⟨some 1 :: List.replicate 31 (some 0), 32⟩
    (by decide)
  exact ⟨h.1, h.2.1⟩

/-! ## The native string bridge (`src/ffi/os_str.rs`)

`OsString<STD>` and `OsStr<STD>` wrap the backend native-string types
`STD::OsString` / `STD::OsStr` (trait `Std`, src/traits.rs:41-42).  The
concrete backends are external to this crate, so the backend side is
modelled from the spec: native strings are byte buffers, and the required
lossless superset-compatible Unicode-to-native conversion (spec §3) is
realized as standard UTF-8.  Unicode strings (`String`/`str`) are modelled
as their lists of Unicode scalar values. -/

/-- A Unicode scalar value: below the surrogate range or between the
surrogates and 0x110000. -/
def ScalarOK (c : Nat) : Prop :=
  c < 0xD800 ∨ (0xDFFF < c ∧ c < 0x110000)

instance (c : Nat) : Decidable (ScalarOK c) := by
  unfold ScalarOK
  infer_instance

/-- A valid Unicode string: every element is a Unicode scalar value. -/
def ValidStr (s : List Nat) : Prop :=
  ∀ c ∈ s, ScalarOK c

instance (s : List Nat) : Decidable (ValidStr s) := by
  unfold ValidStr
  infer_instance

/-- Modelled from the spec: the backend Unicode-to-native conversion for
one scalar value (standard UTF-8, 1 to 4 bytes). -/
def utf8EncodeChar (c : Nat) : List Nat :=
  if c < 0x80 then [c]
  else if c < 0x800 then [0xC0 + c / 64, 0x80 + c % 64]
  else if c < 0x10000 then
    [0xE0 + c / 4096, 0x80 + c / 64 % 64, 0x80 + c % 64]
  else
    [0xF0 + c / 262144, 0x80 + c / 4096 % 64, 0x80 + c / 64 % 64,
      0x80 + c % 64]

/-- Modelled from the spec: the backend `from_string` direction (§6
"Unicode-to-native (total, lossless)") — the UTF-8 byte sequence of a
string of scalar values. -/
def utf8Encode : List Nat → List Nat
  | [] => []
  | c :: t => utf8EncodeChar c ++ utf8Encode t

/-- Modelled from the spec: one step of the backend's validating decoder —
reads one UTF-8-encoded scalar value off the front of a byte list,
rejecting truncated sequences, stray or missing continuation bytes,
overlong forms, surrogates and values above 0x10FFFF. -/
def utf8DecodeOne : List Nat → Option (Nat × List Nat)
  | [] => none
  | b :: rest =>
    if b < 0x80 then some (b, rest)
    else if b < 0xC2 then none
    else if b < 0xE0 then
      match rest with
      | b1 :: rest1 =>
        if 0x80 ≤ b1 ∧ b1 < 0xC0 then
          some ((b - 0xC0) * 64 + (b1 - 0x80), rest1)
        else none
      | [] => none
    else if b < 0xF0 then
      match rest with
      | b1 :: b2 :: rest2 =>
        if 0x80 ≤ b1 ∧ b1 < 0xC0 ∧ 0x80 ≤ b2 ∧ b2 < 0xC0 then
          let c := (b - 0xE0) * 4096 + (b1 - 0x80) * 64 + (b2 - 0x80)
          if 0x800 ≤ c ∧ (c < 0xD800 ∨ 0xDFFF < c) then some (c, rest2)
          else none
        else none
      | _ => none
    else if b < 0xF5 then
      match rest with
      | b1 :: b2 :: b3 :: rest3 =>
        if 0x80 ≤ b1 ∧ b1 < 0xC0 ∧ 0x80 ≤ b2 ∧ b2 < 0xC0 ∧
            0x80 ≤ b3 ∧ b3 < 0xC0 then
          let c := (b - 0xF0) * 262144 + (b1 - 0x80) * 4096 +
            (b2 - 0x80) * 64 + (b3 - 0x80)
          if 0x10000 ≤ c ∧ c < 0x110000 then some (c, rest3) else none
        else none
      | _ => none
    else none

/-- Driver for the decoder; the fuel (bounded by the list length, one unit
per decoded scalar) only makes the recursion structural. -/
def utf8DecodeAux : Nat → List Nat → Option (List Nat)
  | _, [] => some []
  | 0, _ :: _ => none
  | fuel + 1, b :: rest =>
    match utf8DecodeOne (b :: rest) with
    | some (c, rest1) => (utf8DecodeAux fuel rest1).map (fun s => c :: s)
    | none => none

/-- Modelled from the spec: the backend native-to-Unicode direction (§6
"native-to-Unicode (partial, validating)"): succeeds exactly on valid
UTF-8. -/
def utf8Decode (l : List Nat) : Option (List Nat) :=
  utf8DecodeAux l.length l

lemma utf8EncodeChar_length_pos (c : Nat) : 0 < (utf8EncodeChar c).length := by
  unfold utf8EncodeChar
  split_ifs <;> simp

lemma utf8DecodeOne_encodeChar (c : Nat) (rest : List Nat) (h : ScalarOK c) :
    utf8DecodeOne (utf8EncodeChar c ++ rest) = some (c, rest) := by
  have hs : c < 0xD800 ∨ (0xDFFF < c ∧ c < 0x110000) := h
  by_cases ha : c < 0x80
  · simp [utf8EncodeChar, utf8DecodeOne, ha]
  by_cases hb : c < 0x800
  · have e1 : ¬ (0xC0 + c / 64 < 0x80) := by omega
    have e2 : ¬ (0xC0 + c / 64 < 0xC2) := by omega
    have e3 : 0xC0 + c / 64 < 0xE0 := by omega
    have e4 : 0x80 ≤ 0x80 + c % 64 ∧ 0x80 + c % 64 < 0xC0 := by omega
    simp only [utf8EncodeChar, if_neg ha, if_pos hb, List.cons_append,
      List.nil_append]
    simp only [utf8DecodeOne, if_neg e1, if_neg e2, if_pos e3, if_pos e4,
      Option.some.injEq, Prod.mk.injEq]
    exact ⟨by omega, by trivial⟩
  by_cases hc : c < 0x10000
  · have e1 : ¬ (0xE0 + c / 4096 < 0x80) := by omega
    have e2 : ¬ (0xE0 + c / 4096 < 0xC2) := by omega
    have e3 : ¬ (0xE0 + c / 4096 < 0xE0) := by omega
    have e4 : 0xE0 + c / 4096 < 0xF0 := by omega
    have e5 : 0x80 ≤ 0x80 + c / 64 % 64 ∧ 0x80 + c / 64 % 64 < 0xC0 ∧
        0x80 ≤ 0x80 + c % 64 ∧ 0x80 + c % 64 < 0xC0 := by omega
    have hval : (0xE0 + c / 4096 - 0xE0) * 4096 +
        (0x80 + c / 64 % 64 - 0x80) * 64 + (0x80 + c % 64 - 0x80) = c := by
      omega
    have e6 : 0x800 ≤ (0xE0 + c / 4096 - 0xE0) * 4096 +
        (0x80 + c / 64 % 64 - 0x80) * 64 + (0x80 + c % 64 - 0x80) ∧
        ((0xE0 + c / 4096 - 0xE0) * 4096 +
          (0x80 + c / 64 % 64 - 0x80) * 64 + (0x80 + c % 64 - 0x80) < 0xD800 ∨
          0xDFFF < (0xE0 + c / 4096 - 0xE0) * 4096 +
          (0x80 + c / 64 % 64 - 0x80) * 64 + (0x80 + c % 64 - 0x80)) := by
      rw [hval]
      exact ⟨by omega, by omega⟩
    simp only [utf8EncodeChar, if_neg ha, if_neg hb, if_pos hc,
      List.cons_append, List.nil_append]
    simp only [utf8DecodeOne, if_neg e1, if_neg e2, if_neg e3, if_pos e4,
      if_pos e5, if_pos e6, Option.some.injEq, Prod.mk.injEq]
    exact ⟨hval, by trivial⟩
  · have hr : c < 0x110000 := by omega
    have e1 : ¬ (0xF0 + c / 262144 < 0x80) := by omega
    have e2 : ¬ (0xF0 + c / 262144 < 0xC2) := by omega
    have e3 : ¬ (0xF0 + c / 262144 < 0xE0) := by omega
    have e4 : ¬ (0xF0 + c / 262144 < 0xF0) := by omega
    have e5 : 0xF0 + c / 262144 < 0xF5 := by omega
    have e6 : 0x80 ≤ 0x80 + c / 4096 % 64 ∧ 0x80 + c / 4096 % 64 < 0xC0 ∧
        0x80 ≤ 0x80 + c / 64 % 64 ∧ 0x80 + c / 64 % 64 < 0xC0 ∧
        0x80 ≤ 0x80 + c % 64 ∧ 0x80 + c % 64 < 0xC0 := by omega
    have hval : (0xF0 + c / 262144 - 0xF0) * 262144 +
        (0x80 + c / 4096 % 64 - 0x80) * 4096 +
        (0x80 + c / 64 % 64 - 0x80) * 64 + (0x80 + c % 64 - 0x80) = c := by
      omega
    have e7 : 0x10000 ≤ (0xF0 + c / 262144 - 0xF0) * 262144 +
        (0x80 + c / 4096 % 64 - 0x80) * 4096 +
        (0x80 + c / 64 % 64 - 0x80) * 64 + (0x80 + c % 64 - 0x80) ∧
        (0xF0 + c / 262144 - 0xF0) * 262144 +
        (0x80 + c / 4096 % 64 - 0x80) * 4096 +
        (0x80 + c / 64 % 64 - 0x80) * 64 + (0x80 + c % 64 - 0x80) <
          0x110000 := by
      rw [hval]
      exact ⟨by omega, hr⟩
    simp only [utf8EncodeChar, if_neg ha, if_neg hb, if_neg hc,
      List.cons_append, List.nil_append]
    simp only [utf8DecodeOne, if_neg e1, if_neg e2, if_neg e3, if_neg e4,
      if_pos e5, if_pos e6, if_pos e7, Option.some.injEq, Prod.mk.injEq]
    exact ⟨hval, by trivial⟩

lemma utf8DecodeAux_encode :
    ∀ (s : List Nat) (fuel : Nat), ValidStr s →
      (utf8Encode s).length ≤ fuel →
      utf8DecodeAux fuel (utf8Encode s) = some s := by
  intro s
  induction s with
  | nil =>
      intro fuel _ _
      cases fuel <;> rfl
  | cons c t ih =>
      intro fuel hv hlen
      have hvc : ScalarOK c := hv c (by simp)
      have hvt : ValidStr t := fun x hx => hv x (by simp [hx])
      have hstep := utf8DecodeOne_encodeChar c (utf8Encode t) hvc
      rw [show utf8Encode (c :: t) = utf8EncodeChar c ++ utf8Encode t from rfl]
        at hlen ⊢
      obtain ⟨b, bs, hE⟩ : ∃ b bs, utf8EncodeChar c = b :: bs := by
        cases hE : utf8EncodeChar c with
        | nil =>
            have hp := utf8EncodeChar_length_pos c
            rw [hE] at hp
            simp at hp
        | cons b bs => exact ⟨b, bs, rfl⟩
      rw [hE] at hstep hlen ⊢
      simp only [List.cons_append] at hstep hlen ⊢
      cases fuel with
      | zero => simp at hlen
      | succ f =>
          simp only [utf8DecodeAux]
          rw [hstep]
          have hft : (utf8Encode t).length ≤ f := by
            simp only [List.length_cons, List.length_append] at hlen
            omega
          simp [ih f hvt hft]

/-- The round trip at the backend level: decoding the UTF-8 encoding of a
valid string of scalar values gives the string back. -/
lemma utf8Decode_encode (s : List Nat) (h : ValidStr s) :
    utf8Decode (utf8Encode s) = some s :=
  utf8DecodeAux_encode s (utf8Encode s).length h (le_refl _)

/-! ### The `OsString` / `OsStr` wrappers -/

/-- `OsString<STD>` (src/ffi/os_str.rs:81-83): wraps the backend owned
native string, modelled as its byte buffer. -/
structure OsString where
  inner : List Nat
  deriving DecidableEq

/-- `OsStr<STD>` (src/ffi/os_str.rs:101-103): wraps the backend borrowed
native string, modelled as its byte view. -/
structure OsStr where
  inner : List Nat
  deriving DecidableEq

/-- Modelled from the spec: the backend `OsString::from_string` (trait
`traits::OsString`, src/traits.rs:148; implementation external): the
lossless Unicode-to-native conversion, here UTF-8 bytes. -/
def sys_from_string (s : List Nat) : List Nat :=
  utf8Encode s

/-- Modelled from the spec: the backend `OsString::into_string` (trait
`traits::OsString`, src/traits.rs:149; implementation external): validating
decode that on failure returns the original owned buffer unchanged as the
error payload. -/
def sys_into_string (b : List Nat) : Except (List Nat) (List Nat) :=
  match utf8Decode b with
  | some s => Except.ok s
  | none => Except.error b

/-- `impl From<String> for OsString` (src/ffi/os_str.rs:321-325):
`OsString { inner: STD::OsString::from_string(s) }`. -/
def OsString.from_string (s : List Nat) : OsString :=
  ⟨sys_from_string s⟩

/-- `OsString::into_string` (src/ffi/os_str.rs:154-156):
`self.inner.into_string().map_err(|buf| OsString { inner: buf })`. -/
def OsString.into_string (o : OsString) : Except OsString (List Nat) :=
  match sys_into_string o.inner with
  | Except.ok s => Except.ok s
  | Except.error b => Except.error ⟨b⟩

/-- `OsStr::bytes` (src/ffi/os_str.rs:575-577): the raw byte view
(`self.inner.as_bytes()`, identity on the modelled byte buffer). -/
def OsStr.bytes (s : OsStr) : List Nat :=
  s.inner

/-- `u8::cmp`: three-way comparison of two bytes. -/
def byteCmp (a b : Nat) : Ordering :=
  if a < b then Ordering.lt else if b < a then Ordering.gt else Ordering.eq

/-- `<[u8]>::cmp` (lexicographic slice comparison, as used by `Ord for
OsStr`, src/ffi/os_str.rs:707-710): first byte difference decides,
otherwise the shorter slice is smaller. -/
def bytesCmp : List Nat → List Nat → Ordering
  | [], [] => Ordering.eq
  | [], _ :: _ => Ordering.lt
  | _ :: _, [] => Ordering.gt
  | a :: xs, b :: ys =>
    match byteCmp a b with
    | Ordering.eq => bytesCmp xs ys
    | o => o

/-- `impl PartialEq for OsStr` (src/ffi/os_str.rs:656-660):
`self.bytes().eq(other.bytes())`. -/
def OsStr.eq (a b : OsStr) : Bool :=
  a.bytes == b.bytes

/-- `impl Ord for OsStr` (src/ffi/os_str.rs:707-710):
`self.bytes().cmp(other.bytes())`. -/
def OsStr.cmp (a b : OsStr) : Ordering :=
  bytesCmp a.bytes b.bytes

/-- `PartialOrd::lt for OsStr` (src/ffi/os_str.rs:686):
`self.bytes().lt(other.bytes())`, i.e. the byte comparison is `Less`. -/
def OsStr.lt (a b : OsStr) : Bool :=
  OsStr.cmp a b == Ordering.lt

/-- `OsStr::new` on a Unicode string, i.e. `impl AsRef<OsStr> for str`
(src/ffi/os_str.rs:802-807): `STD::OsStr::from_str`, the backend
Unicode-to-native conversion of the string (modelled from the spec as its
UTF-8 bytes, the same lossless direction as `from_string`). -/
def OsStr.new (s : List Nat) : OsStr :=
  ⟨utf8Encode s⟩

/-- `impl PartialEq<str> for OsStr` (src/ffi/os_str.rs:662-667):
`*self == *OsStr::new(other)`. -/
def OsStr.eq_str (n : OsStr) (s : List Nat) : Bool :=
  OsStr.eq n (OsStr.new s)

/-- `impl PartialOrd<str> for OsStr` (src/ffi/os_str.rs:696-701):
`self.partial_cmp(OsStr::new(other))` (always a `some`, given here as the
underlying `Ordering`). -/
def OsStr.cmp_str (n : OsStr) (s : List Nat) : Ordering :=
  OsStr.cmp n (OsStr.new s)

lemma byteCmp_lt_iff {a b : Nat} : byteCmp a b = Ordering.lt ↔ a < b := by
  unfold byteCmp
  split_ifs <;> simp_all

lemma byteCmp_gt_iff {a b : Nat} : byteCmp a b = Ordering.gt ↔ b < a := by
  unfold byteCmp
  split_ifs <;> simp_all
  omega

lemma byteCmp_eq_iff {a b : Nat} : byteCmp a b = Ordering.eq ↔ a = b := by
  unfold byteCmp
  split_ifs <;> simp_all <;> omega

lemma bytesCmp_eq_iff :
    ∀ xs ys : List Nat, bytesCmp xs ys = Ordering.eq ↔ xs = ys := by
  intro xs
  induction xs with
  | nil =>
      intro ys
      cases ys <;> simp [bytesCmp]
  | cons a xs ih =>
      intro ys
      cases ys with
      | nil => simp [bytesCmp]
      | cons b ys =>
          rcases h : byteCmp a b with _ | _ | _
          · simp only [bytesCmp, h]
            constructor
            · intro hq
              exact absurd hq (by simp)
            · intro hq
              have hab : a < b := byteCmp_lt_iff.mp h
              have : a = b := by
                injection hq
              omega
          · have hab : a = b := byteCmp_eq_iff.mp h
            subst hab
            simp only [bytesCmp, h, List.cons.injEq, true_and]
            exact ih ys
          · simp only [bytesCmp, h]
            constructor
            · intro hq
              exact absurd hq (by simp)
            · intro hq
              have hab : b < a := byteCmp_gt_iff.mp h
              have : a = b := by
                injection hq
              omega

lemma bytesCmp_lt_iff :
    ∀ xs ys : List Nat,
      bytesCmp xs ys = Ordering.lt ↔ List.Lex (· < ·) xs ys := by
  intro xs
  induction xs with
  | nil =>
      intro ys
      cases ys with
      | nil =>
          simp only [bytesCmp]
          constructor
          · intro hq
            exact absurd hq (by simp)
          · intro hq
            cases hq
      | cons b ys =>
          simp only [bytesCmp]
          exact ⟨fun _ => List.Lex.nil, fun _ => trivial⟩
  | cons a xs ih =>
      intro ys
      cases ys with
      | nil =>
          simp only [bytesCmp]
          constructor
          · intro hq
            exact absurd hq (by simp)
          · intro hq
            cases hq
      | cons b ys =>
          rcases h : byteCmp a b with _ | _ | _
          · simp only [bytesCmp, h]
            exact ⟨fun _ => List.Lex.rel (byteCmp_lt_iff.mp h),
              fun _ => trivial⟩
          · have hab : a = b := byteCmp_eq_iff.mp h
            subst hab
            simp only [bytesCmp, h]
            constructor
            · intro hq
              exact List.Lex.cons ((ih ys).mp hq)
            · intro hq
              cases hq with
              | cons hq => exact (ih ys).mpr hq
              | rel hq => omega
          · have hab : b < a := byteCmp_gt_iff.mp h
            simp only [bytesCmp, h]
            constructor
            · intro hq
              exact absurd hq (by simp)
            · intro hq
              cases hq with
              | cons hq => omega
              | rel hq => omega

/-! ### Claims about the string bridge -/

/-- C6: round trip — converting any valid Unicode string to an owned
native string (`From<String>`) and back through `into_string` yields
`Ok` of the unchanged string. -/
theorem osString_roundtrip (s : List Nat) (h : ValidStr s) :
    OsString.into_string (OsString.from_string s) = Except.ok s := by
  simp [OsString.into_string, OsString.from_string, sys_from_string,
    sys_into_string, utf8Decode_encode s h]

/-- C6 witness: a concrete string exercising 1-, 2-, 3- and 4-byte
encodings. -/
theorem osString_roundtrip_witness :
    ValidStr [0x48, 0x7FF, 0xFFFD, 0x10348] ∧
    OsString.into_string
        (OsString.from_string [0x48, 0x7FF, 0xFFFD, 0x10348]) =
      Except.ok [0x48, 0x7FF, 0xFFFD, 0x10348] :=
  ⟨by decide, osString_roundtrip _ (by decide)⟩

/-- C7: on decode failure, `into_string` returns `Err` carrying the
original owned native string unchanged, byte for byte. -/
theorem osString_into_string_failure (o : OsString)
    (h : utf8Decode o.inner = none) :
    OsString.into_string o = Except.error o := by
  simp [OsString.into_string, sys_into_string, h]

/-- C7 witness: the one-byte buffer `[0xFF]`, which is not valid UTF-8. -/
theorem osString_into_string_failure_witness :
    utf8Decode (OsString.mk [0xFF]).inner = none ∧
    OsString.into_string ⟨[0xFF]⟩ = Except.error ⟨[0xFF]⟩ :=
  ⟨by decide, osString_into_string_failure ⟨[0xFF]⟩ (by decide)⟩

/-- C8: equality and ordering of native strings are byte-wise — `eq` holds
exactly on equal byte representations, `lt` holds exactly when the bytes
are lexicographically smaller, and the three-way comparison is `eq`
exactly on equal values.  No decoding is involved: the statements hold for
arbitrary byte contents, valid UTF-8 or not. -/
theorem osStr_cmp_bytewise (a b : OsStr) :
    (OsStr.eq a b = true ↔ a.bytes = b.bytes) ∧
    (OsStr.lt a b = true ↔ List.Lex (· < ·) a.bytes b.bytes) ∧
    (OsStr.cmp a b = Ordering.eq ↔ a = b) := by
  refine ⟨?_, ?_, ?_⟩
  · simp [OsStr.eq]
  · have hrw : OsStr.lt a b = true ↔ bytesCmp a.bytes b.bytes = Ordering.lt := by
      unfold OsStr.lt OsStr.cmp
      cases bytesCmp a.bytes b.bytes <;> decide
    rw [hrw]
    exact bytesCmp_lt_iff _ _
  · rw [OsStr.cmp, bytesCmp_eq_iff]
    constructor
    · intro h
      cases a
      cases b
      simp_all [OsStr.bytes]
    · intro h
      rw [h]

/-- C9: comparing a native string with a Unicode string first converts the
Unicode side to native form (`OsStr::new`, the lossless direction) and
then compares byte-wise: the mixed equality is byte equality against the
encoded string, and the mixed ordering is the byte comparison against the
encoded string.  Both depend only on the native side's raw bytes — the
native side is never decoded. -/
theorem osStr_str_cmp_via_encode (n : OsStr) (s : List Nat) :
    (OsStr.eq_str n s = true ↔ n.bytes = utf8Encode s) ∧
    OsStr.cmp_str n s = bytesCmp n.bytes (utf8Encode s) := by
  constructor
  · simp [OsStr.eq_str, OsStr.eq, OsStr.new, OsStr.bytes]
  · rfl

end Rust48010
